import Mathlib

/-!
Verification of the threadkeeper note store (src/index.ts).

The development shallowly embeds the storage/retrieval layer of the server:
the JSON line codec (JSON.stringify / JSON.parse restricted to what the
store produces and validates), the entry validator `isNoteEntry`, the store
operations `loadEntries` / `appendEntry`, the query filters, `formatEntry`,
and the tool handlers.  Filesystem state is modelled as the contents of the
single store file (`Option String`: `none` = absent).  Nondeterministic
inputs of the code (`crypto.randomUUID()`, `new Date().toISOString()`) are
threaded as explicit parameters.
-/

namespace Threadkeeper

/-- JSON values as produced by `JSON.parse`.  Numbers keep their raw lexeme:
the store never inspects numeric values (the validator only ever asks
whether a field is a string), so no floating-point semantics is needed. -/
inductive Json where
  | null : Json
  | bool : Bool → Json
  | num : String → Json
  | str : String → Json
  | arr : List Json → Json
  | obj : List (String × Json) → Json

/-- The entry record of the store (`NoteEntry` in the source).  `file` and
`kind` are the optional fields. -/
structure NoteEntry where
  id : String
  timestamp : String
  text : String
  file : Option String
  kind : Option String
deriving DecidableEq

/-- Lowercase hexadecimal digit, as emitted by `JSON.stringify` in
`\u00xx` escapes. -/
def hexDigitChar (n : Nat) : Char :=
  if n < 10 then Char.ofNat (48 + n) else Char.ofNat (87 + n)

/-- The escape `JSON.stringify` applies to one character of a string:
quote and backslash are escaped, the named control escapes are used for
backspace, tab, newline, form feed and carriage return, all other control
characters become `\u00xx`, and everything else is copied verbatim. -/
def escapeChar (c : Char) : List Char :=
  if c = '"' then ['\\', '"']
  else if c = '\\' then ['\\', '\\']
  else if c = Char.ofNat 8 then ['\\', 'b']
  else if c = Char.ofNat 9 then ['\\', 't']
  else if c = Char.ofNat 10 then ['\\', 'n']
  else if c = Char.ofNat 12 then ['\\', 'f']
  else if c = Char.ofNat 13 then ['\\', 'r']
  else if c.toNat < 32 then
    ['\\', 'u', '0', '0', hexDigitChar (c.toNat / 16), hexDigitChar (c.toNat % 16)]
  else [c]

/-- Escape every character of a string body. -/
def escapeList : List Char → List Char
  | [] => []
  | c :: cs => escapeChar c ++ escapeList cs

/-- A JSON string literal: quote, escaped body, quote. -/
def quoteChars (s : String) : List Char := '"' :: (escapeList s.data ++ ['"'])

/-- The members of a flat string-valued object literal, rendered without
whitespace, comma separated, closed by `}` (`JSON.stringify` layout). -/
def membersChars : List (String × String) → List Char
  | [] => []
  | [(k, v)] => quoteChars k ++ (':' :: (quoteChars v ++ ['}']))
  | (k, v) :: m :: ms => quoteChars k ++ (':' :: (quoteChars v ++ (',' :: membersChars (m :: ms))))

/-- The key/value pairs `JSON.stringify` emits for an entry: insertion
order of the object literal built by `makeEntry` (`id`, `timestamp`,
`text`, `file`, `kind`), with `undefined`-valued fields dropped. -/
def entryPairs (e : NoteEntry) : List (String × String) :=
  [("id", e.id), ("timestamp", e.timestamp), ("text", e.text)]
    ++ (match e.file with | none => [] | some f => [("file", f)])
    ++ (match e.kind with | none => [] | some k => [("kind", k)])

/-- `JSON.stringify(entry)` as a character list. -/
def encodeEntryChars (e : NoteEntry) : List Char := '{' :: membersChars (entryPairs e)

/-- `JSON.stringify(entry)`, the line written by `appendEntry` (without the
trailing newline). -/
def encodeEntry (e : NoteEntry) : String := String.mk (encodeEntryChars e)

/-- Value of a hexadecimal digit character, if any. -/
def hexVal (c : Char) : Option Nat :=
  if 48 ≤ c.toNat ∧ c.toNat ≤ 57 then some (c.toNat - 48)
  else if 97 ≤ c.toNat ∧ c.toNat ≤ 102 then some (c.toNat - 87)
  else if 65 ≤ c.toNat ∧ c.toNat ≤ 70 then some (c.toNat - 55)
  else none

/-- Parse the body of a JSON string literal (the opening quote already
consumed); returns the decoded characters and the input remaining after the
closing quote.  Raw control characters are rejected, escapes follow the
JSON grammar. -/
def parseStringBody : List Char → Option (List Char × List Char)
  | [] => none
  | c :: rest =>
    if c = '"' then some ([], rest)
    else if c = '\\' then
      match rest with
      | [] => none
      | e :: r2 =>
        if e = '"' then (parseStringBody r2).map (fun p => ('"' :: p.1, p.2))
        else if e = '\\' then (parseStringBody r2).map (fun p => ('\\' :: p.1, p.2))
        else if e = '/' then (parseStringBody r2).map (fun p => ('/' :: p.1, p.2))
        else if e = 'b' then (parseStringBody r2).map (fun p => (Char.ofNat 8 :: p.1, p.2))
        else if e = 'f' then (parseStringBody r2).map (fun p => (Char.ofNat 12 :: p.1, p.2))
        else if e = 'n' then (parseStringBody r2).map (fun p => (Char.ofNat 10 :: p.1, p.2))
        else if e = 'r' then (parseStringBody r2).map (fun p => (Char.ofNat 13 :: p.1, p.2))
        else if e = 't' then (parseStringBody r2).map (fun p => (Char.ofNat 9 :: p.1, p.2))
        else if e = 'u' then
          match r2 with
          | h1 :: h2 :: h3 :: h4 :: r3 =>
            match hexVal h1, hexVal h2, hexVal h3, hexVal h4 with
            | some a, some b, some c2, some d =>
              (parseStringBody r3).map
                (fun p => (Char.ofNat (4096 * a + 256 * b + 16 * c2 + d) :: p.1, p.2))
            | _, _, _, _ => none
          | _ => none
        else none
    else if c.toNat < 32 then none
    else (parseStringBody rest).map (fun p => (c :: p.1, p.2))

/-- Round trip of one escaped character: parsing the escape sequence of `c`
prepends `c` and continues with the remaining input. -/
theorem parseStringBody_escapeChar (c : Char) (tail : List Char) :
    parseStringBody (escapeChar c ++ tail) =
      (parseStringBody tail).map (fun p => (c :: p.1, p.2)) := by
  by_cases hq : c = '"'
  · subst hq
    simp only [escapeChar, if_pos rfl, List.cons_append, List.nil_append]
    conv_lhs => rw [parseStringBody.eq_def]
    simp +decide
  by_cases hb : c = '\\'
  · subst hb
    simp +decide only [escapeChar, List.cons_append, List.nil_append]
    conv_lhs => rw [parseStringBody.eq_def]
    simp +decide
  by_cases h8 : c = Char.ofNat 8
  · subst h8
    simp +decide only [escapeChar, List.cons_append, List.nil_append]
    conv_lhs => rw [parseStringBody.eq_def]
    simp +decide
  by_cases h9 : c = Char.ofNat 9
  · subst h9
    simp +decide only [escapeChar, List.cons_append, List.nil_append]
    conv_lhs => rw [parseStringBody.eq_def]
    simp +decide
  by_cases h10 : c = Char.ofNat 10
  · subst h10
    simp +decide only [escapeChar, List.cons_append, List.nil_append]
    conv_lhs => rw [parseStringBody.eq_def]
    simp +decide
  by_cases h12 : c = Char.ofNat 12
  · subst h12
    simp +decide only [escapeChar, List.cons_append, List.nil_append]
    conv_lhs => rw [parseStringBody.eq_def]
    simp +decide
  by_cases h13 : c = Char.ofNat 13
  · subst h13
    simp +decide only [escapeChar, List.cons_append, List.nil_append]
    conv_lhs => rw [parseStringBody.eq_def]
    simp +decide
  by_cases hc : c.toNat < 32
  · have hhex : ∀ n, n < 32 →
        hexVal (hexDigitChar (n / 16)) = some (n / 16) ∧
        hexVal (hexDigitChar (n % 16)) = some (n % 16) := by decide
    have h1 := (hhex c.toNat hc).1
    have h2 := (hhex c.toNat hc).2
    have hz : hexVal '0' = some 0 := by decide
    simp only [escapeChar, if_neg hq, if_neg hb, if_neg h8, if_neg h9, if_neg h10,
      if_neg h12, if_neg h13, if_pos hc, List.cons_append, List.nil_append]
    conv_lhs => rw [parseStringBody.eq_def]
    simp +decide [hz, h1, h2, Nat.div_add_mod, Char.ofNat_toNat]
  · simp only [escapeChar, if_neg hq, if_neg hb, if_neg h8, if_neg h9, if_neg h10,
      if_neg h12, if_neg h13, if_neg hc, List.cons_append, List.nil_append]
    conv_lhs => rw [parseStringBody.eq_def]
    simp [hq, hb, hc]

/-- Round trip of a whole string body: parsing the escaped body followed by
the closing quote yields the original characters. -/
theorem parseStringBody_escape (s : List Char) (rest : List Char) :
    parseStringBody (escapeList s ++ ('"' :: rest)) = some (s, rest) := by
  induction s with
  | nil =>
    simp only [escapeList, List.nil_append]
    conv_lhs => rw [parseStringBody.eq_def]
    simp +decide
  | cons c s ih =>
    simp only [escapeList, List.append_assoc]
    rw [parseStringBody_escapeChar, ih]
    rfl

/-- JSON whitespace: space, tab, line feed, carriage return. -/
def skipWs : List Char → List Char
  | [] => []
  | c :: rest =>
    if c = ' ' ∨ c = Char.ofNat 9 ∨ c = Char.ofNat 10 ∨ c = Char.ofNat 13 then skipWs rest
    else c :: rest

/-- Longest digit run at the head of the input. -/
def takeDigits : List Char → List Char × List Char
  | [] => ([], [])
  | c :: rest =>
    if c.isDigit then
      let p := takeDigits rest
      (c :: p.1, p.2)
    else ([], c :: rest)

/-- A nonempty digit run, or failure. -/
def digitsNonempty (cs : List Char) : Option (List Char × List Char) :=
  match takeDigits cs with
  | ([], _) => none
  | (ds, rest) => some (ds, rest)

/-- Optional fraction part of a JSON number. -/
def parseFrac : List Char → Option (List Char × List Char)
  | [] => some ([], [])
  | c :: rest =>
    if c = '.' then (digitsNonempty rest).map (fun p => ('.' :: p.1, p.2))
    else some ([], c :: rest)

/-- Optional exponent part of a JSON number. -/
def parseExp : List Char → Option (List Char × List Char)
  | [] => some ([], [])
  | c :: rest =>
    if c = 'e' ∨ c = 'E' then
      match rest with
      | [] => none
      | s :: rest2 =>
        if s = '+' ∨ s = '-' then (digitsNonempty rest2).map (fun p => (c :: s :: p.1, p.2))
        else (digitsNonempty rest).map (fun p => (c :: p.1, p.2))
    else some ([], c :: rest)

/-- JSON number per the grammar `-?(0|[1-9][0-9]*)(.[0-9]+)?([eE][+-]?[0-9]+)?`;
only the raw lexeme is kept since the store never reads numeric values. -/
def parseNumber (cs : List Char) : Option (Json × List Char) :=
  let body : List Char → Option (List Char × List Char) := fun cs1 => do
    let (ds, r1) ← digitsNonempty cs1
    if ds.head? = some '0' ∧ ds.length ≠ 1 then none
    else
      let (fs, r2) ← parseFrac r1
      let (es, r3) ← parseExp r2
      some (ds ++ fs ++ es, r3)
  match cs with
  | [] => none
  | c :: rest =>
    if c = '-' then (body rest).map (fun p => (Json.num (String.mk ('-' :: p.1)), p.2))
    else (body (c :: rest)).map (fun p => (Json.num (String.mk p.1), p.2))

mutual

/-- `JSON.parse`, value production: returns the value and the remaining
input.  Fuel only bounds the recursion depth through containers; callers
pass more fuel than the input length, so it never runs out. -/
def parseValue : Nat → List Char → Option (Json × List Char)
  | 0, _ => none
  | fuel + 1, cs =>
    match skipWs cs with
    | [] => none
    | c :: r =>
      if c = '"' then (parseStringBody r).map (fun p => (Json.str (String.mk p.1), p.2))
      else if c = '{' then
        match skipWs r with
        | [] => none
        | d :: r2 =>
          if d = '}' then some (Json.obj [], r2)
          else (parseMembers fuel (d :: r2)).map (fun p => (Json.obj p.1, p.2))
      else if c = '[' then
        match skipWs r with
        | [] => none
        | d :: r2 =>
          if d = ']' then some (Json.arr [], r2)
          else (parseElements fuel (d :: r2)).map (fun p => (Json.arr p.1, p.2))
      else if c = 't' then
        match r with
        | 'r' :: 'u' :: 'e' :: r2 => some (Json.bool true, r2)
        | _ => none
      else if c = 'f' then
        match r with
        | 'a' :: 'l' :: 's' :: 'e' :: r2 => some (Json.bool false, r2)
        | _ => none
      else if c = 'n' then
        match r with
        | 'u' :: 'l' :: 'l' :: r2 => some (Json.null, r2)
        | _ => none
      else parseNumber (c :: r)

/-- `JSON.parse`, object members production (positioned at a key, past any
whitespace). -/
def parseMembers : Nat → List Char → Option (List (String × Json) × List Char)
  | 0, _ => none
  | fuel + 1, cs =>
    match cs with
    | [] => none
    | c :: r =>
      if c = '"' then
        match parseStringBody r with
        | none => none
        | some (key, r2) =>
          match skipWs r2 with
          | [] => none
          | d :: r3 =>
            if d = ':' then
              match parseValue fuel r3 with
              | none => none
              | some (v, r4) =>
                match skipWs r4 with
                | [] => none
                | d2 :: r5 =>
                  if d2 = ',' then
                    (parseMembers fuel (skipWs r5)).map
                      (fun p => ((String.mk key, v) :: p.1, p.2))
                  else if d2 = '}' then some ([(String.mk key, v)], r5)
                  else none
            else none
      else none

/-- `JSON.parse`, array elements production. -/
def parseElements : Nat → List Char → Option (List Json × List Char)
  | 0, _ => none
  | fuel + 1, cs =>
    match parseValue fuel cs with
    | none => none
    | some (v, r) =>
      match skipWs r with
      | [] => none
      | d :: r2 =>
        if d = ',' then (parseElements fuel r2).map (fun p => (v :: p.1, p.2))
        else if d = ']' then some ([v], r2)
        else none

end

/-- `JSON.parse(line)`: parse one value, allow surrounding whitespace,
require the input to be fully consumed; `none` models the thrown
`SyntaxError`. -/
def jsonParse (s : String) : Option Json :=
  match parseValue (s.data.length + 1) s.data with
  | some (j, rest) => if skipWs rest = [] then some j else none
  | none => none

/-- JS property read on a parsed object: with duplicate keys, `JSON.parse`
keeps the last occurrence. -/
def jsGet (props : List (String × Json)) (key : String) : Option Json :=
  List.foldl (fun acc p => if p.1 = key then some p.2 else acc) none props

/-- The check `typeof record.f === "undefined" || typeof record.f === "string"`
performed by `isNoteEntry` on the optional fields: absent is fine, a string
is fine, anything else rejects. -/
def optStringField : Option Json → Option (Option String)
  | none => some none
  | some (Json.str s) => some (some s)
  | some _ => none

/-- `isNoteEntry`: a parsed value is an entry iff it is an object whose
`id`, `timestamp`, `text` properties are strings and whose `file` and
`kind` properties are absent or strings.  (`null`, arrays, and primitives
all fail the JS checks: `null` is falsy, and non-objects or arrays have no
string-typed `id` property.) -/
def jsonToEntry : Json → Option NoteEntry
  | Json.obj props =>
    match jsGet props "id" with
    | some (Json.str id) =>
      match jsGet props "timestamp" with
      | some (Json.str ts) =>
        match jsGet props "text" with
        | some (Json.str tx) =>
          match optStringField (jsGet props "file") with
          | some file =>
            match optStringField (jsGet props "kind") with
            | some kind => some ⟨id, ts, tx, file, kind⟩
            | none => none
          | none => none
        | _ => none
      | _ => none
    | _ => none
  | _ => none

/-- Decoding one store line: `JSON.parse` then `isNoteEntry`.  `none` covers
both failure modes (they are distinguished again in `parseEntries`). -/
def decodeLine (line : String) : Option NoteEntry := (jsonParse line).bind jsonToEntry

theorem stringMk_data (s : String) : String.mk s.data = s := rfl

/-- The parsed form of an encoded entry: a flat object with the entry's
pairs as string members. -/
def entryJson (e : NoteEntry) : Json :=
  Json.obj ((entryPairs e).map (fun p => (p.1, Json.str p.2)))

/-- Parsing a quoted string value consumes exactly the quoted literal
(stated in the append-normalised form the other proofs produce). -/
theorem parseValue_quote (f : Nat) (s : String) (A : List Char) :
    parseValue (f + 1) ('"' :: (escapeList s.data ++ ('"' :: A))) = some (Json.str s, A) := by
  conv_lhs => rw [parseValue.eq_def]
  simp +decide [skipWs, parseStringBody_escape, stringMk_data]

/-- A member list starts with a quote, which is not whitespace. -/
theorem skipWs_membersChars (k v : String) (ms : List (String × String)) (rest : List Char) :
    skipWs (membersChars ((k, v) :: ms) ++ rest) = membersChars ((k, v) :: ms) ++ rest := by
  cases ms <;>
    simp +decide [membersChars, quoteChars, skipWs, List.cons_append, List.append_assoc]

/-- Parsing the members of an encoded flat object recovers the pairs, one
fuel unit per member. -/
theorem parseMembers_flat (ms : List (String × String)) (f : Nat) (rest : List Char)
    (hlen : ms.length ≤ f) (hne : ms ≠ []) :
    parseMembers (f + 1) (membersChars ms ++ rest) =
      some (ms.map (fun p => (p.1, Json.str p.2)), rest) := by
  induction ms generalizing f rest with
  | nil => exact absurd rfl hne
  | cons p ms ih =>
    obtain ⟨k, v⟩ := p
    obtain ⟨g, rfl⟩ : ∃ g, f = g + 1 := ⟨f - 1, by simp at hlen; omega⟩
    cases ms with
    | nil =>
      conv_lhs => rw [parseMembers.eq_def]
      simp +decide [membersChars, quoteChars, skipWs, parseStringBody_escape,
        parseValue_quote, stringMk_data, List.append_assoc, List.cons_append,
        List.singleton_append]
    | cons m ms2 =>
      obtain ⟨k2, v2⟩ := m
      have hskip := skipWs_membersChars k2 v2 ms2 rest
      have hrec := ih g rest (by simp at hlen ⊢; omega) (by simp)
      conv_lhs => rw [parseMembers.eq_def]
      simp +decide [membersChars, quoteChars, skipWs, parseStringBody_escape,
        parseValue_quote, stringMk_data, List.append_assoc, List.cons_append,
        List.singleton_append, hskip, hrec]

/-- Parsing an encoded entry object yields its member list as a `Json.obj`. -/
theorem parseValue_encode (e : NoteEntry) (g : Nat) (rest : List Char) (h : 5 ≤ g) :
    parseValue (g + 2) (encodeEntryChars e ++ rest) = some (entryJson e, rest) := by
  rcases hf : e.file with _ | f0 <;> rcases hk : e.kind with _ | k0
  all_goals
    have hflat := parseMembers_flat (entryPairs e) g rest
      (by simp [entryPairs, hf, hk]; omega) (by simp [entryPairs, hf, hk])
    simp only [entryPairs, hf, hk, membersChars, quoteChars, List.cons_append,
      List.append_assoc, List.singleton_append, List.nil_append, List.append_nil,
      List.map]  at hflat
    conv_lhs => rw [parseValue.eq_def]
    simp +decide [encodeEntryChars, entryPairs, hf, hk, membersChars, quoteChars,
      skipWs, List.cons_append, List.append_assoc, List.singleton_append,
      List.nil_append, List.append_nil, hflat, entryJson, stringMk_data]

theorem encodeLen (e : NoteEntry) : 6 ≤ (encodeEntryChars e).length := by
  rcases hf : e.file with _ | f0 <;> rcases hk : e.kind with _ | k0
  all_goals
    simp [encodeEntryChars, entryPairs, hf, hk, membersChars, quoteChars,
      List.length_append, List.length_cons]
    omega

/-- `JSON.parse` inverts `JSON.stringify` on encoded entries. -/
theorem jsonParse_encode (e : NoteEntry) : jsonParse (encodeEntry e) = some (entryJson e) := by
  have hlen := encodeLen e
  obtain ⟨g, hg⟩ : ∃ g, (encodeEntryChars e).length + 1 = g + 2 :=
    ⟨(encodeEntryChars e).length - 1, by omega⟩
  have h5 : 5 ≤ g := by omega
  have hmain := parseValue_encode e g [] h5
  rw [List.append_nil] at hmain
  have hdata : (encodeEntry e).data = encodeEntryChars e := rfl
  unfold jsonParse
  rw [hdata, hg, hmain]
  simp [skipWs]

/-- The validator accepts the parsed form of an encoded entry and rebuilds
the very same record. -/
theorem jsonToEntry_entryJson (e : NoteEntry) : jsonToEntry (entryJson e) = some e := by
  rcases e with ⟨id, ts, tx, file, kind⟩
  cases file <;> cases kind <;>
    simp +decide [entryJson, entryPairs, jsonToEntry, jsGet, optStringField, List.foldl]

/-- Full line round trip: decoding an encoded entry reproduces it exactly. -/
theorem decodeLine_encodeEntry (e : NoteEntry) : decodeLine (encodeEntry e) = some e := by
  simp [decodeLine, jsonParse_encode, jsonToEntry_entryJson]

/-- Prepend a character to the first chunk of a split result. -/
def consHead (c : Char) : List (List Char) → List (List Char)
  | [] => [[c]]
  | l :: ls => (c :: l) :: ls

/-- `text.split(/\r?\n/)` at the character level: a line feed always splits,
a carriage return splits only when a line feed follows (and is consumed
with it), a lone carriage return stays in the line. -/
def splitChars : List Char → List (List Char)
  | [] => [[]]
  | c :: rest =>
    if c = Char.ofNat 10 then [] :: splitChars rest
    else if c = Char.ofNat 13 then
      match rest with
      | [] => [[Char.ofNat 13]]
      | d :: rest2 =>
        if d = Char.ofNat 10 then [] :: splitChars rest2
        else consHead c (splitChars (d :: rest2))
    else consHead c (splitChars rest)

/-- `text.split(/\r?\n/)` on strings. -/
def splitLines (s : String) : List String := (splitChars s.data).map String.mk

/-- The errors `loadEntries` can surface: the two thrown messages (with
their 1-based line number) and a rethrown filesystem error other than
`ENOENT`. -/
inductive LoadError where
  | invalidFormat : Nat → LoadError
  | invalidEntry : Nat → LoadError
  | ioError : String → LoadError
deriving DecidableEq

/-- The 1-based line position an error message identifies, if any. -/
def LoadError.lineNo : LoadError → Option Nat
  | invalidFormat n => some n
  | invalidEntry n => some n
  | ioError _ => none

/-- The human-readable message of each error, as thrown by the source. -/
def LoadError.message : LoadError → String
  | invalidFormat n => "Invalid note store format at line " ++ toString n ++ "."
  | invalidEntry n => "Invalid note entry at line " ++ toString n ++ "."
  | ioError code => code

/-- The loop body of `loadEntries`: walk the split lines with their index,
skip empty lines, `JSON.parse` then `isNoteEntry` each non-empty line, and
abort with the indexed error on the first failure. -/
def parseEntries : List String → Nat → Except LoadError (List NoteEntry)
  | [], _ => Except.ok []
  | line :: rest, i =>
    if line = "" then parseEntries rest (i + 1)
    else
      match jsonParse line with
      | none => Except.error (LoadError.invalidFormat (i + 1))
      | some j =>
        match jsonToEntry j with
        | none => Except.error (LoadError.invalidEntry (i + 1))
        | some e => (parseEntries rest (i + 1)).map (fun l => e :: l)

/-- Outcome of the `fs.readFile` call: contents, `ENOENT`, or another
filesystem error (carrying its code). -/
inductive ReadResult where
  | found : String → ReadResult
  | absent : ReadResult
  | failure : String → ReadResult

/-- `loadEntries` given the read outcome: `ENOENT` yields the empty list,
any other read error is rethrown unchanged, contents are split and
decoded. -/
def loadEntriesFrom : ReadResult → Except LoadError (List NoteEntry)
  | ReadResult.absent => Except.ok []
  | ReadResult.failure code => Except.error (LoadError.ioError code)
  | ReadResult.found text => parseEntries (splitLines text) 0

/-- Reading the modelled store file: absent file gives `ENOENT`. -/
def readStore : Option String → ReadResult
  | none => ReadResult.absent
  | some text => ReadResult.found text

/-- `loadEntries(storePath)` over the modelled filesystem. -/
def loadStore (fs : Option String) : Except LoadError (List NoteEntry) :=
  loadEntriesFrom (readStore fs)

/-- `appendEntry(storePath, entry)`: `fs.appendFile` creates the file when
absent and appends `JSON.stringify(entry)` plus a line feed. -/
def appendEntry (fs : Option String) (e : NoteEntry) : Option String :=
  some ((fs.getD "") ++ encodeEntry e ++ String.mk [Char.ofNat 10])

/-- `JSON.stringify` output never contains a raw line feed or carriage
return: both are escaped. -/
theorem escapeChar_no_newline (c : Char) :
    Char.ofNat 10 ∉ escapeChar c ∧ Char.ofNat 13 ∉ escapeChar c := by
  have hhex : ∀ t, t < 32 →
      (Char.ofNat 10 ∉ ['\\', 'u', '0', '0', hexDigitChar (t / 16), hexDigitChar (t % 16)] ∧
       Char.ofNat 13 ∉ ['\\', 'u', '0', '0', hexDigitChar (t / 16), hexDigitChar (t % 16)]) := by
    decide
  unfold escapeChar
  split_ifs with h1 h2 h3 h4 h5 h6 h7 h8
  · decide
  · decide
  · decide
  · decide
  · decide
  · decide
  · decide
  · exact hhex c.toNat h8
  · constructor
    · intro hm
      rcases List.mem_singleton.mp hm with h
      apply h8
      rw [← h]
      decide
    · intro hm
      rcases List.mem_singleton.mp hm with h
      apply h8
      rw [← h]
      decide

theorem escapeList_no_newline (l : List Char) :
    Char.ofNat 10 ∉ escapeList l ∧ Char.ofNat 13 ∉ escapeList l := by
  induction l with
  | nil => simp [escapeList]
  | cons c l ih =>
    have hc := escapeChar_no_newline c
    simp only [escapeList, List.mem_append, not_or]
    exact ⟨⟨hc.1, ih.1⟩, ⟨hc.2, ih.2⟩⟩

theorem quoteChars_no_newline (s : String) :
    Char.ofNat 10 ∉ quoteChars s ∧ Char.ofNat 13 ∉ quoteChars s := by
  have h := escapeList_no_newline s.data
  simp only [quoteChars, List.mem_cons, List.mem_append, List.mem_singleton, not_or]
  exact ⟨⟨by decide, h.1, by decide⟩, ⟨by decide, h.2, by decide⟩⟩

theorem membersChars_no_newline (ms : List (String × String)) :
    Char.ofNat 10 ∉ membersChars ms ∧ Char.ofNat 13 ∉ membersChars ms := by
  induction ms with
  | nil => simp [membersChars]
  | cons p ms ih =>
    obtain ⟨k, v⟩ := p
    cases ms with
    | nil =>
      refine ⟨fun hm => ?_, fun hm => ?_⟩ <;>
        simp only [membersChars, List.mem_append, List.mem_cons, List.mem_singleton] at hm
      · rcases hm with h | h | h | h
        · exact (quoteChars_no_newline k).1 h
        · exact absurd h (by decide)
        · exact (quoteChars_no_newline v).1 h
        · exact absurd h (by decide)
      · rcases hm with h | h | h | h
        · exact (quoteChars_no_newline k).2 h
        · exact absurd h (by decide)
        · exact (quoteChars_no_newline v).2 h
        · exact absurd h (by decide)
    | cons m ms2 =>
      refine ⟨fun hm => ?_, fun hm => ?_⟩ <;>
        simp only [membersChars, List.mem_append, List.mem_cons, List.mem_singleton] at hm
      · rcases hm with h | h | h | h | h
        · exact (quoteChars_no_newline k).1 h
        · exact absurd h (by decide)
        · exact (quoteChars_no_newline v).1 h
        · exact absurd h (by decide)
        · exact ih.1 h
      · rcases hm with h | h | h | h | h
        · exact (quoteChars_no_newline k).2 h
        · exact absurd h (by decide)
        · exact (quoteChars_no_newline v).2 h
        · exact absurd h (by decide)
        · exact ih.2 h

theorem encodeEntryChars_no_newline (e : NoteEntry) :
    Char.ofNat 10 ∉ encodeEntryChars e ∧ Char.ofNat 13 ∉ encodeEntryChars e := by
  have hm := membersChars_no_newline (entryPairs e)
  simp +decide only [encodeEntryChars, List.mem_cons, not_or]
  exact ⟨⟨by decide, hm.1⟩, ⟨by decide, hm.2⟩⟩

/-- Splitting a newline-free, carriage-return-free line followed by a line
feed peels off exactly that line. -/
theorem splitChars_append_line (l rest : List Char)
    (h10 : Char.ofNat 10 ∉ l) (h13 : Char.ofNat 13 ∉ l) :
    splitChars (l ++ (Char.ofNat 10 :: rest)) = l :: splitChars rest := by
  induction l with
  | nil =>
    simp only [List.nil_append]
    conv_lhs => rw [splitChars.eq_def]
    simp
  | cons c l ih =>
    simp only [List.mem_cons, not_or] at h10 h13
    have hc10 : ¬(c = Char.ofNat 10) := fun h => h10.1 h.symm
    have hc13 : ¬(c = Char.ofNat 13) := fun h => h13.1 h.symm
    simp only [List.cons_append]
    conv_lhs => rw [splitChars.eq_def]
    simp only [if_neg hc10, if_neg hc13]
    rw [ih (fun h => h10.2 h) (fun h => h13.2 h)]
    simp [consHead]

/-- A chunk with no line feed splits into itself alone (a lone carriage
return does not split). -/
theorem splitChars_no_newline (l : List Char) (h10 : Char.ofNat 10 ∉ l) :
    splitChars l = [l] := by
  induction l with
  | nil => rfl
  | cons c l ih =>
    simp only [List.mem_cons, not_or] at h10
    have hc10 : ¬(c = Char.ofNat 10) := fun h => h10.1 h.symm
    have hrec := ih h10.2
    by_cases hc13 : c = Char.ofNat 13
    · subst hc13
      conv_lhs => rw [splitChars.eq_def]
      simp only [if_neg hc10, if_pos rfl]
      cases l with
      | nil => rfl
      | cons d l2 =>
        have hd : ¬(d = Char.ofNat 10) := by
          intro h
          exact h10.2 (h ▸ List.mem_cons_self d l2)
        simp only [if_neg hd]
        rw [hrec]
        rfl
    · conv_lhs => rw [splitChars.eq_def]
      simp only [if_neg hc10, if_neg hc13]
      rw [hrec]
      rfl

/-- File contents produced by a sequence of appends starting from an empty
or absent file. -/
def contentOf : List NoteEntry → List Char
  | [] => []
  | e :: es => encodeEntryChars e ++ (Char.ofNat 10 :: contentOf es)

theorem encodeEntry_ne_empty (e : NoteEntry) : ¬(String.mk (encodeEntryChars e) = "") := by
  intro hh
  have hd : encodeEntryChars e = [] := congrArg String.data hh
  have := encodeLen e
  rw [hd] at this
  simp at this

/-- Parsing the content of `n` appended entries yields those entries, at
any starting index. -/
theorem parseEntries_contentOf (es : List NoteEntry) (i : Nat) :
    parseEntries ((splitChars (contentOf es)).map String.mk) i = Except.ok es := by
  induction es generalizing i with
  | nil => rfl
  | cons e es ih =>
    have hnl := encodeEntryChars_no_newline e
    simp only [contentOf]
    rw [splitChars_append_line _ _ hnl.1 hnl.2]
    simp only [List.map_cons]
    conv_lhs => rw [parseEntries.eq_def]
    simp only [if_neg (encodeEntry_ne_empty e)]
    have hdec : jsonParse (String.mk (encodeEntryChars e)) = some (entryJson e) :=
      jsonParse_encode e
    rw [hdec]
    simp only [jsonToEntry_entryJson, ih (i + 1)]
    rfl

/-- The character content of the modelled store file. -/
def storeContent : Option String → List Char
  | none => []
  | some s => s.data

theorem storeContent_fold (es : List NoteEntry) (fs : Option String) :
    storeContent (List.foldl appendEntry fs es) = storeContent fs ++ contentOf es := by
  induction es generalizing fs with
  | nil => simp [contentOf]
  | cons e es ih =>
    rw [List.foldl_cons, ih]
    have hstep : storeContent (appendEntry fs e) =
        storeContent fs ++ (encodeEntryChars e ++ [Char.ofNat 10]) := by
      have hed : (encodeEntry e).data = encodeEntryChars e := rfl
      cases fs <;> simp [appendEntry, storeContent, String.data_append, Option.getD, hed]
    rw [hstep]
    simp [contentOf, List.append_assoc]

theorem foldl_appendEntry_none_eq (es : List NoteEntry) (fs : Option String)
    (h : List.foldl appendEntry fs es = none) : fs = none ∧ es = [] := by
  induction es generalizing fs with
  | nil => exact ⟨h, rfl⟩
  | cons e es ih =>
    rw [List.foldl_cons] at h
    rcases ih (appendEntry fs e) h with ⟨h1, _⟩
    exact absurd h1 (by simp [appendEntry])

/-- Core of the append-only property: loading the store produced by `n`
appends from an absent file returns exactly those entries in order. -/
theorem loadStore_fold (es : List NoteEntry) :
    loadStore (List.foldl appendEntry none es) = Except.ok es := by
  cases hfold : List.foldl appendEntry none es with
  | none =>
    rcases foldl_appendEntry_none_eq es none hfold with ⟨_, rfl⟩
    rfl
  | some s =>
    have hdata : s.data = contentOf es := by
      have := storeContent_fold es none
      rw [hfold] at this
      simpa [storeContent] using this
    show parseEntries ((splitChars s.data).map String.mk) 0 = Except.ok es
    rw [hdata]
    exact parseEntries_contentOf es 0

/-- A line the load loop rejects: non-empty and failing to decode (either
not valid JSON or not a valid entry). -/
def lineBad (l : String) : Bool := !(l == "") && (decodeLine l).isNone

/-- The load loop aborts at the first bad line, reporting its 1-based
position relative to the starting index, and returns no entries. -/
theorem parseEntries_first_bad (ls : List String) (i : Nat) (h : ls.any lineBad = true) :
    ∃ err, parseEntries ls i = Except.error err ∧
      err.lineNo = some (i + ls.findIdx lineBad + 1) := by
  induction ls generalizing i with
  | nil => simp at h
  | cons l ls ih =>
    by_cases hb : lineBad l = true
    · have hbad := hb
      simp only [lineBad, Bool.and_eq_true, Bool.not_eq_true', beq_eq_false_iff_ne,
        Option.isNone_iff_eq_none] at hbad
      rw [List.findIdx_cons, hb]
      cases hjp : jsonParse l with
      | none =>
        refine ⟨LoadError.invalidFormat (i + 1), ?_, ?_⟩
        · conv_lhs => rw [parseEntries.eq_def]
          simp [hbad.1, hjp]
        · simp [LoadError.lineNo]
      | some j =>
        have hje : jsonToEntry j = none := by
          have := hbad.2
          simpa [decodeLine, hjp] using this
        refine ⟨LoadError.invalidEntry (i + 1), ?_, ?_⟩
        · conv_lhs => rw [parseEntries.eq_def]
          simp [hbad.1, hjp, hje]
        · simp [LoadError.lineNo]
    · have hbf : lineBad l = false := by
        cases hx : lineBad l
        · rfl
        · exact absurd hx hb
      have h' : ls.any lineBad = true := by
        simpa [List.any_cons, hbf] using h
      obtain ⟨err, he, hn⟩ := ih (i + 1) h'
      rw [List.findIdx_cons, hbf]
      by_cases hemp : l = ""
      · refine ⟨err, ?_, ?_⟩
        · conv_lhs => rw [parseEntries.eq_def]
          simp only [if_pos hemp]
          exact he
        · rw [hn]
          simp only [Bool.cond_false, Option.some.injEq]
          omega
      · have hdec : ¬(decodeLine l = none) := by
          intro hna
          have : lineBad l = true := by
            simp [lineBad, hemp, hna]
          exact hb this
        cases hd : decodeLine l with
        | none => exact absurd hd hdec
        | some e =>
          obtain ⟨j, hj, hje⟩ := Option.bind_eq_some.mp hd
          refine ⟨err, ?_, ?_⟩
          · conv_lhs => rw [parseEntries.eq_def]
            simp only [if_neg hemp, hj, hje, he]
            rfl
          · rw [hn]
            simp only [Bool.cond_false, Option.some.injEq]
            omega

/-- JS truthiness of an optional string field: `undefined` and the empty
string are falsy, everything else truthy. -/
def jsTruthy : Option String → Bool
  | none => false
  | some s => !(s == "")

/-- A single line feed, the separator `formatEntry` joins with. -/
def nlString : String := String.mk [Char.ofNat 10]

/-- `Array.prototype.join(sep)`. -/
def joinSep (sep : String) : List String → String
  | [] => ""
  | [l] => l
  | l :: m :: ls => l ++ sep ++ joinSep sep (m :: ls)

/-- `formatEntry`: id and timestamp lines, a kind line when `entry.kind` is
truthy, a file line when `entry.file` is truthy, then the `text:` marker
and the raw text, joined with line feeds. -/
def formatEntry (e : NoteEntry) : String :=
  joinSep nlString
    (["id: " ++ e.id, "timestamp: " ++ e.timestamp]
      ++ (if jsTruthy e.kind then ["kind: " ++ e.kind.getD ""] else [])
      ++ (if jsTruthy e.file then ["file: " ++ e.file.getD ""] else [])
      ++ ["text:", e.text])

/-- `formatEntries`: the empty message for an empty list, else the
formatted entries joined by a blank line. -/
def formatEntries (entries : List NoteEntry) (emptyMessage : String) : String :=
  if entries = [] then emptyMessage
  else joinSep (nlString ++ nlString) (entries.map formatEntry)

/-- The result a tool handler returns: the single text content item and
the `isError` flag (absent means `false`). -/
structure ToolResult where
  isError : Bool
  text : String
deriving DecidableEq

/-- The fixed caution message every write handler returns when
`approved` is false. -/
def cautionMessage : String :=
  "Refusing to store unapproved text. Ask the user to confirm verbatim text before storing."

/-- `makeEntry`: the generated id, the caller timestamp or the current
time, and the payload fields. -/
def makeEntry (genId now : String) (text : String)
    (file timestamp kind : Option String) : NoteEntry :=
  ⟨genId, timestamp.getD now, text, file, kind⟩

/-- The `notes.store` handler.  `genId` and `now` stand for
`crypto.randomUUID()` and `new Date().toISOString()`. -/
def notesStoreHandler (fs : Option String) (genId now : String) (text : String)
    (approved : Bool) (file timestamp kind : Option String) : Option String × ToolResult :=
  if !approved then (fs, ⟨true, cautionMessage⟩)
  else
    let entry := makeEntry genId now text file timestamp kind
    (appendEntry fs entry, ⟨false, "Stored note " ++ entry.id ++ "."⟩)

/-- The `teach.request` handler: kind is fixed to `teach.request` and the
response is the formatted entry. -/
def teachRequestHandler (fs : Option String) (genId now : String) (question : String)
    (approved : Bool) (file timestamp : Option String) : Option String × ToolResult :=
  if !approved then (fs, ⟨true, cautionMessage⟩)
  else
    let entry := makeEntry genId now question file timestamp (some "teach.request")
    (appendEntry fs entry, ⟨false, formatEntry entry⟩)

/-- The `teach.note` handler: kind is fixed to `teach.note` and the
response is the formatted entry. -/
def teachNoteHandler (fs : Option String) (genId now : String) (text : String)
    (approved : Bool) (file timestamp : Option String) : Option String × ToolResult :=
  if !approved then (fs, ⟨true, cautionMessage⟩)
  else
    let entry := makeEntry genId now text file timestamp (some "teach.note")
    (appendEntry fs entry, ⟨false, formatEntry entry⟩)

/-- The `questions.ask` handler: returns the question verbatim, touching
nothing. -/
def questionsAskHandler (fs : Option String) (question : String) :
    Option String × ToolResult :=
  (fs, ⟨false, question⟩)

/-- The `teach.ask` handler: returns the question verbatim, touching
nothing. -/
def teachAskHandler (fs : Option String) (question : String) :
    Option String × ToolResult :=
  (fs, ⟨false, question⟩)

/-- `entry.kind === kind` in JS: an absent (`undefined`) kind is never
equal to a string. -/
def jsKindEq : Option String → String → Bool
  | some s, k => s == k
  | none, _ => false

/-- The filter of the `notes.list_kind` handler. -/
def listKindMatches (entries : List NoteEntry) (kind : String) : List NoteEntry :=
  entries.filter (fun e => jsKindEq e.kind kind)

/-- `String.prototype.includes`: scan for a position where the needle is a
prefix of the remaining hay. -/
def hasSubstr (hay needle : List Char) : Bool :=
  match hay with
  | [] => needle.isEmpty
  | c :: rest => needle.isPrefixOf (c :: rest) || hasSubstr rest needle

/-- `entry.text.includes(contains)`. -/
def jsIncludes (s sub : String) : Bool := hasSubstr s.data sub.data

/-- The filter of the `notes.find` handler. -/
def findMatches (entries : List NoteEntry) (contains : String) : List NoteEntry :=
  entries.filter (fun e => jsIncludes e.text contains)

/-- The `notes.list_kind` handler. -/
def notesListKindHandler (fs : Option String) (kind : String) : Except LoadError ToolResult :=
  (loadStore fs).map (fun entries =>
    ⟨false, formatEntries (listKindMatches entries kind)
      ("No notes found for kind " ++ kind ++ ".")⟩)

/-- The `notes.find` handler. -/
def notesFindHandler (fs : Option String) (contains : String) : Except LoadError ToolResult :=
  (loadStore fs).map (fun entries =>
    ⟨false, formatEntries (findMatches entries contains)
      "No notes matched the exact substring."⟩)

/-- The `notes.get` handler: first entry with the requested id, else a
result flagged as an error with the not-found message. -/
def notesGetHandler (fs : Option String) (id : String) : Except LoadError ToolResult :=
  (loadStore fs).map (fun entries =>
    match entries.find? (fun e => e.id == id) with
    | none => ⟨true, "No note found for id " ++ id ++ "."⟩
    | some e => ⟨false, formatEntry e⟩)

/-- `path.join(os.homedir(), ".threadkeeper", "notes.jsonl")`.  The join is
modelled as plain separator concatenation; the claims do not depend on
`path.join` segment normalisation. -/
def DEFAULT_STORE_PATH (home : String) : String := home ++ "/.threadkeeper/notes.jsonl"

/-- POSIX `path.isAbsolute`: the path starts with a separator. -/
def isAbsolutePath (p : String) : Bool :=
  match p.data with
  | [] => false
  | c :: _ => c = '/'

/-- `path.resolve(p)` against the working directory: an absolute path is
kept, a relative one is joined onto `cwd`.  Dot-segment normalisation is
omitted; the claims only concern which branch is taken and absoluteness. -/
def pathResolve (cwd p : String) : String :=
  if isAbsolutePath p then p else cwd ++ "/" ++ p

/-- `resolveStorePath`: `process.env.THREADKEEPER_STORE_PATH` is the
`envOverride` argument (`none` = unset).  `!override` is true for both
`undefined` and the empty string. -/
def resolveStorePath (envOverride : Option String) (cwd home : String) : String :=
  match envOverride with
  | none => DEFAULT_STORE_PATH home
  | some v => if v = "" then DEFAULT_STORE_PATH home else pathResolve cwd v

theorem isPrefixOf_iff_exists (n l : List Char) :
    n.isPrefixOf l = true ↔ ∃ t, l = n ++ t := by
  induction n generalizing l with
  | nil => simp [List.isPrefixOf]
  | cons a as ih =>
    cases l with
    | nil => simp [List.isPrefixOf]
    | cons b bs =>
      constructor
      · intro h
        obtain ⟨hab, ht⟩ : a = b ∧ as.isPrefixOf bs = true := by
          simpa [List.isPrefixOf] using h
        obtain ⟨t, rfl⟩ := (ih bs).mp ht
        subst hab
        exact ⟨t, rfl⟩
      · rintro ⟨t, ht⟩
        injection ht with h1 h2
        subst h1
        simp [List.isPrefixOf, ih]
        exact ⟨t, h2⟩

/-- `String.prototype.includes` finds the needle exactly when the needle
occurs as a contiguous substring. -/
theorem hasSubstr_iff (hay needle : List Char) :
    hasSubstr hay needle = true ↔ ∃ l r, hay = l ++ needle ++ r := by
  induction hay with
  | nil =>
    constructor
    · intro h
      have hn : needle = [] := by
        simpa [hasSubstr, List.isEmpty_iff] using h
      exact ⟨[], [], by simp [hn]⟩
    · rintro ⟨l, r, hl⟩
      have h2 := hl.symm
      rw [List.append_assoc] at h2
      rcases List.append_eq_nil.mp h2 with ⟨rfl, h3⟩
      rcases List.append_eq_nil.mp h3 with ⟨rfl, rfl⟩
      rfl
  | cons c rest ih =>
    show (needle.isPrefixOf (c :: rest) || hasSubstr rest needle) = true ↔ _
    rw [Bool.or_eq_true, isPrefixOf_iff_exists, ih]
    constructor
    · rintro (⟨t, ht⟩ | ⟨l, r, hl⟩)
      · exact ⟨[], t, by simp [ht]⟩
      · exact ⟨c :: l, r, by simp [hl]⟩
    · rintro ⟨l, r, hl⟩
      cases l with
      | nil =>
        exact Or.inl ⟨r, by simpa using hl⟩
      | cons y ys =>
        injection hl with h1 h2
        exact Or.inr ⟨ys, r, h2⟩

/-- `Array.prototype.find` returns the first match when the list splits
into a match-free front, the first match, and a tail. -/
theorem find_append_first (pre : List NoteEntry) (e : NoteEntry) (post : List NoteEntry)
    (id : String) (hpre : ∀ x ∈ pre, ¬(x.id = id)) (he : e.id = id) :
    List.find? (fun x => x.id == id) (pre ++ e :: post) = some e := by
  induction pre with
  | nil => simp [List.find?_cons, he]
  | cons a pre ih =>
    have ha : ¬(a.id = id) := hpre a (List.mem_cons_self a pre)
    have htl : ∀ x ∈ pre, ¬(x.id = id) :=
      fun x hx => hpre x (List.mem_cons_of_mem a hx)
    simpa [List.find?_cons, ha] using ih htl

/-- The spec's literal reading of `formatOne`: a kind line whenever `kind`
is present, a file line whenever `file` is present. -/
def formatEntrySpecClaim (e : NoteEntry) : String :=
  joinSep nlString
    (["id: " ++ e.id, "timestamp: " ++ e.timestamp]
      ++ (match e.kind with | some k => ["kind: " ++ k] | none => [])
      ++ (match e.file with | some f => ["file: " ++ f] | none => [])
      ++ ["text:", e.text])

/-- The corrected rendering: a kind line whenever `kind` is present and
non-empty, a file line whenever `file` is present and non-empty (JS
truthiness of the optional fields). -/
def formatEntrySpecAmended (e : NoteEntry) : String :=
  joinSep nlString
    (["id: " ++ e.id, "timestamp: " ++ e.timestamp]
      ++ (match e.kind with
          | some k => if k = "" then [] else ["kind: " ++ k]
          | none => [])
      ++ (match e.file with
          | some f => if f = "" then [] else ["file: " ++ f]
          | none => [])
      ++ ["text:", e.text])

theorem formatEntry_eq_amended (e : NoteEntry) : formatEntry e = formatEntrySpecAmended e := by
  rcases e with ⟨i, t, x, file, kind⟩
  cases file <;> cases kind <;>
    simp [formatEntry, formatEntrySpecAmended, jsTruthy]

theorem formatEntry_teachNote_data (i t x : String) :
    (formatEntry ⟨i, t, x, none, some "teach.note"⟩).data =
      ("id: " ++ i).data ++ Char.ofNat 10 ::
        (("timestamp: " ++ t).data ++ Char.ofNat 10 ::
          ("kind: teach.note".data ++ Char.ofNat 10 ::
            ("text:".data ++ Char.ofNat 10 :: x.data))) := by
  have hkl : "kind: " ++ ("teach.note" : String) = "kind: teach.note" := by decide
  have hnl : nlString.data = [Char.ofNat 10] := rfl
  simp [formatEntry, jsTruthy, joinSep, Option.getD, hkl, String.data_append, hnl,
    List.append_assoc]

theorem splitChars_formatEntry_teachNote (i t x : String)
    (hi10 : Char.ofNat 10 ∉ i.data) (hi13 : Char.ofNat 13 ∉ i.data)
    (ht10 : Char.ofNat 10 ∉ t.data) (ht13 : Char.ofNat 13 ∉ t.data)
    (hx10 : Char.ofNat 10 ∉ x.data) :
    splitChars (formatEntry ⟨i, t, x, none, some "teach.note"⟩).data =
      [("id: " ++ i).data, ("timestamp: " ++ t).data, "kind: teach.note".data,
        "text:".data, x.data] := by
  have hid10 : Char.ofNat 10 ∉ ("id: " ++ i).data := by
    simp only [String.data_append, List.mem_append, not_or]
    exact ⟨by decide, hi10⟩
  have hid13 : Char.ofNat 13 ∉ ("id: " ++ i).data := by
    simp only [String.data_append, List.mem_append, not_or]
    exact ⟨by decide, hi13⟩
  have hts10 : Char.ofNat 10 ∉ ("timestamp: " ++ t).data := by
    simp only [String.data_append, List.mem_append, not_or]
    exact ⟨by decide, ht10⟩
  have hts13 : Char.ofNat 13 ∉ ("timestamp: " ++ t).data := by
    simp only [String.data_append, List.mem_append, not_or]
    exact ⟨by decide, ht13⟩
  rw [formatEntry_teachNote_data]
  rw [splitChars_append_line _ _ hid10 hid13]
  rw [splitChars_append_line _ _ hts10 hts13]
  rw [splitChars_append_line _ _ (by decide) (by decide)]
  rw [splitChars_append_line _ _ (by decide) (by decide)]
  rw [splitChars_no_newline x.data hx10]

/-- C1: every write operation (notes.store, teach.request, teach.note)
invoked with `approved = false` performs no write — the store file value is
returned unchanged — and yields the error-flagged refusal carrying the
fixed caution message, for all values of the other parameters. -/
theorem c1_approval_gate (fs : Option String) (genId now text question : String)
    (file timestamp kind : Option String) :
    notesStoreHandler fs genId now text false file timestamp kind =
        (fs, ⟨true, cautionMessage⟩) ∧
    teachRequestHandler fs genId now question false file timestamp =
        (fs, ⟨true, cautionMessage⟩) ∧
    teachNoteHandler fs genId now text false file timestamp =
        (fs, ⟨true, cautionMessage⟩) :=
  ⟨rfl, rfl, rfl⟩

/-- C2: starting from an absent store file, after appending any finite
sequence of entries, loading returns exactly that sequence — same length,
same order, each entry structurally equal to what was appended (absent
optional fields stay absent), nothing clobbered or reordered. -/
theorem c2_append_then_load_roundtrip (es : List NoteEntry) :
    loadStore (List.foldl appendEntry none es) = Except.ok es :=
  loadStore_fold es

/-- C3: decoding the encoded representation of any valid entry reproduces
every field exactly (absent optional fields stay absent), and the encoded
representation is a single line (contains no line feed). -/
theorem c3_decode_encode_roundtrip (e : NoteEntry) :
    decodeLine (encodeEntry e) = some e ∧ Char.ofNat 10 ∉ (encodeEntry e).data :=
  ⟨decodeLine_encodeEntry e, (encodeEntryChars_no_newline e).1⟩

/-- C4: whenever some non-empty line of the store file fails to decode,
loading fails with an error whose message identifies the 1-based position
of the first such line, and no entries are returned. -/
theorem c4_load_aborts_on_bad_line (content : String)
    (h : (splitLines content).any lineBad = true) :
    ∃ err, loadStore (some content) = Except.error err ∧
      err.lineNo = some ((splitLines content).findIdx lineBad + 1) ∧
      ∀ es, ¬(loadStore (some content) = Except.ok es) := by
  obtain ⟨err, he, hn⟩ := parseEntries_first_bad (splitLines content) 0 h
  refine ⟨err, he, ?_, ?_⟩
  · rw [hn]
    simp
  · intro es hok
    have hcontra : Except.error err = Except.ok es := he.symm.trans hok
    exact Except.noConfusion hcontra

/-- Store contents with one undecodable line among two valid ones. -/
def c4BadContent : String :=
  "\x7b\"id\":\"a\",\"timestamp\":\"t\",\"text\":\"x\"\x7d\nnot json\n\x7b\"id\":\"b\",\"timestamp\":\"t\",\"text\":\"y\"\x7d"

theorem c4_load_aborts_on_bad_line_witness :
    ∃ err, loadStore (some c4BadContent) = Except.error err ∧
      err.lineNo = some 2 ∧
      ∀ es, ¬(loadStore (some c4BadContent) = Except.ok es) := by
  have h := c4_load_aborts_on_bad_line c4BadContent (by decide)
  have hidx : (splitLines c4BadContent).findIdx lineBad + 1 = 2 := by decide
  rw [hidx] at h
  exact h

/-- C5: loading with no store file present yields the empty sequence, not
an error; any read failure other than file-absent is propagated to the
caller unchanged. -/
theorem c5_load_missing_file_and_io_errors :
    loadStore none = Except.ok [] ∧
    loadEntriesFrom ReadResult.absent = Except.ok [] ∧
    ∀ code, loadEntriesFrom (ReadResult.failure code) =
      Except.error (LoadError.ioError code) :=
  ⟨rfl, rfl, fun _ => rfl⟩

/-- C6: the by-kind filter keeps exactly the entries whose kind equals the
query (case-sensitively; absent kinds never match) in insertion order, and
the substring filter keeps exactly the entries whose text contains the
query as a case-sensitive contiguous substring, in insertion order. -/
theorem c6_filter_correctness (entries : List NoteEntry) (kind sub : String) :
    (listKindMatches entries kind = entries.filter (fun e => e.kind == some kind)) ∧
    List.Sublist (listKindMatches entries kind) entries ∧
    (∀ e, e ∈ listKindMatches entries kind ↔ e ∈ entries ∧ e.kind = some kind) ∧
    List.Sublist (findMatches entries sub) entries ∧
    (∀ e, e ∈ findMatches entries sub ↔
        e ∈ entries ∧ ∃ l r, e.text.data = l ++ sub.data ++ r) := by
  refine ⟨?_, List.filter_sublist _, ?_, List.filter_sublist _, ?_⟩
  · have hp : (fun e : NoteEntry => jsKindEq e.kind kind) =
        (fun e : NoteEntry => e.kind == some kind) := by
      funext e
      cases e.kind <;> rfl
    rw [listKindMatches, hp]
  · intro e
    rw [listKindMatches, List.mem_filter]
    constructor
    · rintro ⟨hm, hk⟩
      refine ⟨hm, ?_⟩
      cases hkind : e.kind with
      | none =>
        rw [hkind] at hk
        exact absurd hk (by simp [jsKindEq])
      | some s =>
        rw [hkind] at hk
        have hs : s = kind := by simpa [jsKindEq] using hk
        exact congrArg some hs
    · rintro ⟨hm, hk⟩
      exact ⟨hm, by simp [jsKindEq, hk]⟩
  · intro e
    rw [findMatches, List.mem_filter]
    have hiff := hasSubstr_iff e.text.data sub.data
    constructor
    · rintro ⟨hm, hs⟩
      exact ⟨hm, hiff.mp hs⟩
    · rintro ⟨hm, hs⟩
      exact ⟨hm, hiff.mpr hs⟩

/-- C7 counterexample: for an entry whose `kind` is present but empty, the
rendering has no kind line, so the claim's "a kind line whenever kind is
present" fails (JS truthiness treats the empty string as absent). -/
theorem c7_format_counterexample :
    ¬(formatEntry ⟨"i", "t", "x", none, some ""⟩ =
        formatEntrySpecClaim ⟨"i", "t", "x", none, some ""⟩) := by
  decide

/-- C7 (amended): `formatEntry` renders the id line, the timestamp line, a
kind line whenever `kind` is present AND non-empty, a file line whenever
`file` is present AND non-empty, then the `text:` marker and the raw text
unmodified; the approved teach.note response is the formatted entry, and
for a newline-free text with no file it is exactly five lines: id,
timestamp, `kind: teach.note`, `text:`, then the text. -/
theorem c7_format_amended :
    (∀ e, formatEntry e = formatEntrySpecAmended e) ∧
    (∀ fs genId now text file timestamp,
        teachNoteHandler fs genId now text true file timestamp =
          (appendEntry fs (makeEntry genId now text file timestamp (some "teach.note")),
           ⟨false, formatEntry (makeEntry genId now text file timestamp (some "teach.note"))⟩)) ∧
    (∀ i t x : String, Char.ofNat 10 ∉ i.data → Char.ofNat 13 ∉ i.data →
        Char.ofNat 10 ∉ t.data → Char.ofNat 13 ∉ t.data → Char.ofNat 10 ∉ x.data →
        splitChars (formatEntry ⟨i, t, x, none, some "teach.note"⟩).data =
          [("id: " ++ i).data, ("timestamp: " ++ t).data, "kind: teach.note".data,
            "text:".data, x.data]) :=
  ⟨formatEntry_eq_amended, fun _ _ _ _ _ _ => rfl, splitChars_formatEntry_teachNote⟩

theorem c7_format_amended_witness :
    splitChars (formatEntry ⟨"a", "t0", "use explicit types", none, some "teach.note"⟩).data =
      [("id: " ++ "a").data, ("timestamp: " ++ "t0").data, "kind: teach.note".data,
        "text:".data, ("use explicit types" : String).data] :=
  c7_format_amended.2.2 "a" "t0" "use explicit types" (by decide) (by decide) (by decide)
    (by decide) (by decide)

/-- C8: both echo operations return the supplied string exactly — any
string, including the empty one and strings with newlines or multi-byte
characters — and leave the store file untouched. -/
theorem c8_echo_identity (fs : Option String) (q : String) :
    questionsAskHandler fs q = (fs, ⟨false, q⟩) ∧
    teachAskHandler fs q = (fs, ⟨false, q⟩) :=
  ⟨rfl, rfl⟩

/-- C9 counterexample: for an absent id the handler returns a result with
`isError: true`, so the claim's "not an error-flagged result" fails. -/
theorem c9_get_counterexample :
    (notesGetHandler none "missing" =
        Except.ok ⟨true, "No note found for id missing."⟩) ∧
    ¬(notesGetHandler none "missing" =
        Except.ok ⟨false, "No note found for id missing."⟩) := by
  constructor
  · rfl
  · intro h
    rw [show notesGetHandler none "missing" =
        Except.ok (⟨true, "No note found for id missing."⟩ : ToolResult) from rfl] at h
    simp at h

/-- C9 (amended): for an id absent from the loaded entries, the get-by-id
operation returns a normal response value carrying the not-found message
but flagged `isError: true` (no exception is thrown); for a present id it
returns the formatted first matching entry in insertion order. -/
theorem c9_get_amended (fs : Option String) (entries : List NoteEntry) (id : String)
    (h : loadStore fs = Except.ok entries) :
    ((∀ x ∈ entries, ¬(x.id = id)) →
        notesGetHandler fs id =
          Except.ok ⟨true, "No note found for id " ++ id ++ "."⟩) ∧
    (∀ pre e post, entries = pre ++ e :: post → (∀ x ∈ pre, ¬(x.id = id)) → e.id = id →
        notesGetHandler fs id = Except.ok ⟨false, formatEntry e⟩) := by
  constructor
  · intro habs
    have hfind : List.find? (fun x => x.id == id) entries = none :=
      List.find?_eq_none.mpr (fun x hx => by simpa using habs x hx)
    simp [notesGetHandler, h, hfind, Except.map]
  · intro pre e post hsplit hpre he
    have hfind := find_append_first pre e post id hpre he
    rw [← hsplit] at hfind
    simp [notesGetHandler, h, hfind, Except.map]

deriving instance DecidableEq for Except

/-- Store contents with two entries sharing the id `a`. -/
def c9StoreContent : String :=
  "\x7b\"id\":\"a\",\"timestamp\":\"t\",\"text\":\"first\"\x7d\n\x7b\"id\":\"a\",\"timestamp\":\"t\",\"text\":\"second\"\x7d\n"

theorem c9_get_amended_witness :
    notesGetHandler (some c9StoreContent) "a" =
      Except.ok ⟨false, formatEntry ⟨"a", "t", "first", none, none⟩⟩ :=
  (c9_get_amended (some c9StoreContent)
      [⟨"a", "t", "first", none, none⟩, ⟨"a", "t", "second", none, none⟩] "a"
      (by decide)).2
    [] ⟨"a", "t", "first", none, none⟩ [⟨"a", "t", "second", none, none⟩] rfl
    (by simp) rfl

/-- C10: with the environment override unset or empty, the store path is
the fixed default under the home directory; with any non-empty override it
is that value resolved against the working directory, hence absolute
whenever the working directory is. -/
theorem c10_resolve_store_path (cwd home : String) :
    resolveStorePath none cwd home = DEFAULT_STORE_PATH home ∧
    resolveStorePath (some "") cwd home = DEFAULT_STORE_PATH home ∧
    ∀ v, ¬(v = "") →
      resolveStorePath (some v) cwd home = pathResolve cwd v ∧
      (isAbsolutePath cwd = true →
        isAbsolutePath (resolveStorePath (some v) cwd home) = true) := by
  refine ⟨rfl, rfl, ?_⟩
  intro v hv
  have hres : resolveStorePath (some v) cwd home = pathResolve cwd v := by
    simp [resolveStorePath, hv]
  refine ⟨hres, ?_⟩
  intro habs
  rw [hres]
  unfold pathResolve
  by_cases hav : isAbsolutePath v = true
  · rw [if_pos hav]
    exact hav
  · rw [if_neg hav]
    unfold isAbsolutePath at habs ⊢
    cases hcw : cwd.data with
    | nil =>
      rw [hcw] at habs
      exact absurd habs (by simp)
    | cons c cs =>
      rw [hcw] at habs
      have hd : (cwd ++ "/" ++ v).data = c :: (cs ++ ("/" ++ v).data) := by
        rw [String.data_append, String.data_append, hcw]
        simp [String.data_append, List.cons_append, List.append_assoc]
      rw [hd]
      exact habs

theorem c10_resolve_store_path_witness :
    resolveStorePath (some "custom/notes.jsonl") "/cwd" "/home/u" =
        pathResolve "/cwd" "custom/notes.jsonl" ∧
    isAbsolutePath (resolveStorePath (some "custom/notes.jsonl") "/cwd" "/home/u") = true :=
  ⟨((c10_resolve_store_path "/cwd" "/home/u").2.2 "custom/notes.jsonl" (by decide)).1,
   ((c10_resolve_store_path "/cwd" "/home/u").2.2 "custom/notes.jsonl" (by decide)).2
     (by decide)⟩

end Threadkeeper
